import Mathlib

/-!
Verification of the QiILS `akmax_solver.py` pipeline.

Shallow embedding of `src/python_solvers/akmax_solver.py`:
* `load_graph` parses an edge-list file (given as its list of lines) into a
  weighted undirected graph, modelled as an association list keyed by the
  normalised (unordered) node pair, mirroring `networkx.Graph.add_edge`
  semantics (an existing edge has its weight attribute overwritten).
* `run_solver` is modelled as a pure function from the run parameters, the
  file contents and the external solver output (an ordered list of samples)
  to the files the run writes; the hard-coded paths, console printing and
  the external AKMaxSAT call itself are outside the embedding.
* Float arithmetic is modelled with `ℚ`; Python `int(...)` is modelled by
  `String.toInt?` and Python `float(...)` by a decimal-literal parser
  `pyFloat` (the subset of float syntax relevant to the edge files).
-/

/-- ASCII whitespace recognised by Python `str.strip()` on the file lines
(space, tab, newline, carriage return, vertical tab, form feed). -/
def isSpaceChar (c : Char) : Bool :=
  c = ' ' || c = '\t' || c = '\n' || c = '\r' || c = '\x0b' || c = '\x0c'

/-- Model of Python `str.strip()`: drop whitespace from both ends. -/
def pyStrip (cs : List Char) : List Char :=
  ((cs.dropWhile isSpaceChar).reverse.dropWhile isSpaceChar).reverse

/-- Model of Python `str.split(sep)` for a one-character separator: split
the character list at every occurrence of `sep`, keeping empty fields. -/
def splitOnChar (sep : Char) : List Char → List (List Char)
  | [] => [[]]
  | c :: rest =>
      if c = sep then [] :: splitOnChar sep rest
      else
        match splitOnChar sep rest with
        | [] => [[c]]
        | f :: fs => (c :: f) :: fs

/-- Value of a non-empty all-digit character list, accumulator style. -/
def digitsVal : List Char → Nat → Option Nat
  | [], acc => some acc
  | c :: rest, acc =>
      if c.isDigit then digitsVal rest (acc * 10 + (c.toNat - 48)) else none

/-- Natural-number reading of a field: at least one character, all digits. -/
def pyNat (cs : List Char) : Option Nat :=
  if cs = [] then none else digitsVal cs 0

/-- Python `int(s)` on the strings appearing in edge files: an optional sign
followed by digits; anything else raises, modelled as `none`. -/
def pyInt (cs : List Char) : Option Int :=
  match cs with
  | '-' :: rest => (pyNat rest).map (fun n => -(n : Int))
  | '+' :: rest => (pyNat rest).map (fun n => (n : Int))
  | _ => (pyNat cs).map (fun n => (n : Int))

/-- Python `float(s)` restricted to plain decimal literals: optional sign,
integer digits, optional dot and fractional digits (at least one digit in
total). Any other string fails, modelled as `none`. -/
def pyFloat (cs : List Char) : Option ℚ :=
  let sgn : ℚ :=
    match cs with
    | '-' :: _ => -1
    | _ => 1
  let body : List Char :=
    match cs with
    | '-' :: rest => rest
    | '+' :: rest => rest
    | _ => cs
  match splitOnChar '.' body with
  | [ip] => (pyNat ip).map (fun n => sgn * (n : ℚ))
  | [ip, fp] =>
      if ip = [] && fp = [] then none
      else
        match (if ip = [] then some 0 else pyNat ip),
              (if fp = [] then some 0 else pyNat fp) with
        | some n, some f => some (sgn * ((n : ℚ) + (f : ℚ) / (10 : ℚ) ^ fp.length))
        | _, _ => none
  | _ => none

/-- Line parser for one line of the edge file, following
`weight_str, node1_str, node2_str = line.strip().split(',')` and the
subsequent conversions: exactly three comma-separated fields, integer node
fields, and the weight field converted by `float` only when `weighted` is
true, otherwise replaced by `1.0`. Returns `(node1, node2, weight)`. -/
def parseLine (weighted : Bool) (line : String) : Option (Int × Int × ℚ) :=
  match splitOnChar ',' (pyStrip line.data) with
  | [weight_str, node1_str, node2_str] =>
      match pyInt node1_str, pyInt node2_str with
      | some node1, some node2 =>
          match (if weighted then pyFloat weight_str else some 1) with
          | some weight => some (node1, node2, weight)
          | none => none
      | _, _ => none
  | _ => none

/-- Normalised key of the undirected edge between `u` and `v`, so that the
pair is compared unordered, as `networkx.Graph` does. -/
def ekey (u v : Int) : Int × Int :=
  if u ≤ v then (u, v) else (v, u)

/-- In-memory weighted undirected graph: association list from normalised
edge key to weight, in insertion order. -/
abbrev WGraph : Type := List ((Int × Int) × ℚ)

/-- Membership test on the edge keys of a graph. -/
def containsK : WGraph → (Int × Int) → Bool
  | [], _ => false
  | e :: rest, k => e.1 == k || containsK rest k

/-- Overwrite the weight stored at key `k` (first occurrence), keeping the
edge in place, as `networkx` updates the attributes of an existing edge. -/
def replaceW : WGraph → (Int × Int) → ℚ → WGraph
  | [], _, _ => []
  | e :: rest, k, w => if e.1 = k then (k, w) :: rest else e :: replaceW rest k w

/-- Model of `G.add_edge(node1, node2, weight=weight)`: update the weight if
the unordered pair is already present, otherwise append the new edge. -/
def addEdge (G : WGraph) (u v : Int) (w : ℚ) : WGraph :=
  if containsK G (ekey u v) then replaceW G (ekey u v) w else G ++ [(ekey u v, w)]

/-- Weight stored in the graph for the edge between `u` and `v`, if any. -/
def lookupW : WGraph → (Int × Int) → Option ℚ
  | [], _ => none
  | e :: rest, k => if e.1 = k then some e.2 else lookupW rest k

/-- Loop body of `load_graph`: process the remaining lines in order,
aborting the whole load on the first parse failure. -/
def load_lines (weighted : Bool) (G : WGraph) : List String → Option WGraph
  | [] => some G
  | line :: rest =>
      match parseLine weighted line with
      | none => none
      | some (node1, node2, weight) => load_lines weighted (addEdge G node1 node2 weight) rest

/-- Model of `load_graph(filepath, weighted)`: the file is given as its list
of lines; a malformed or non-numeric line makes the whole load fail. -/
def load_graph (lines : List String) (weighted : Bool) : Option WGraph :=
  load_lines weighted [] lines

/-- Model of `W = sum(d.weight for _, _, d in G.edges(data=True))`. -/
def total_weight (G : WGraph) : ℚ :=
  (G.map (fun e => e.2)).sum

/-- One solver sample: a spin assignment, modelled as the ordered key-value
pairs of the Python dict (keys are distinct in a dict), with its energy. -/
structure Sample where
  assign : List (Int × Int)
  energy : ℚ

/-- Partition S0 of a sample, from
`S0 = [node for node, val in sample.items() if val == -1]`. -/
def sampleS0 (s : Sample) : List Int :=
  (s.assign.filter (fun p => p.2 = -1)).map (fun p => p.1)

/-- Partition S1 of a sample, from
`S1 = [node for node, val in sample.items() if val == 1]`. -/
def sampleS1 (s : Sample) : List Int :=
  (s.assign.filter (fun p => p.2 = 1)).map (fun p => p.1)

/-- Cut value computed in the extraction loop: `cut_value = (W - E) / 2`. -/
def cut_value (W E : ℚ) : ℚ :=
  (W - E) / 2

/-- CutResult view of one sample, printed by the debug loop of
`run_solver`: both partitions, the energy, and the computed cut value. -/
structure CutResult where
  s0 : List Int
  s1 : List Int
  energy : ℚ
  cut : ℚ

/-- Extraction of one sample at total weight `W` (body of the loop over
`energy_data`). -/
def extract (W : ℚ) (s : Sample) : CutResult :=
  ⟨sampleS0 s, sampleS1 s, s.energy, cut_value W s.energy⟩

/-- Extraction of the whole ordered sample sequence. -/
def extract_all (W : ℚ) (samples : List Sample) : List CutResult :=
  samples.map (extract W)

/-- JSON-serialisable values appearing in the saved dictionary. -/
inductive JValue where
  | jint (i : Int)
  | jbool (b : Bool)
  | jnum (q : ℚ)
  | jstr (s : String)
  deriving DecidableEq

/-- Key-value content of the `savedict` literal written to the result file,
with its keys in source order. -/
def savedict (N k seed : Int) (weighted : Bool) (W first_energy first_cut : ℚ) :
    List (String × JValue) :=
  [("N", JValue.jint N),
   ("k", JValue.jint k),
   ("seed", JValue.jint seed),
   ("weighted", JValue.jbool weighted),
   ("W", JValue.jnum W),
   ("ising_energy", JValue.jnum first_energy),
   ("maxcut_value", JValue.jnum first_cut),
   ("method", JValue.jstr "AKMaxSAT")]

/-- Files written by one run: the auxiliary sum-of-weights file (its numeric
content) and, when present, the JSON result record. -/
structure RunOutput where
  sumweights : ℚ
  record : Option (List (String × JValue))
  deriving DecidableEq

/-- Model of `run_solver(N, k, seed, weighted)`. The graph file contents
arrive as `lines`; the external AKMaxSAT sampler is replaced by its output
`energy_data`, the ordered list of samples it returns. A load failure
propagates as `none`: the exception aborts the run before any file is
written (the `W` file is written only after `load_graph` returns). When the
sample list is non-empty the result record is built from the first sample. -/
def run_solver (N k seed : Int) (weighted : Bool) (lines : List String)
    (energy_data : List Sample) : Option RunOutput :=
  match load_graph lines weighted with
  | none => none
  | some G =>
      let W := total_weight G
      match energy_data with
      | [] => some ⟨W, none⟩
      | first :: _ =>
          let first_energy := first.energy
          let first_cut := (W - first_energy) / 2
          some ⟨W, some (savedict N k seed weighted W first_energy first_cut)⟩

/-- Left-biased choice on optional weights: the first argument wins when it
is present. -/
def firstSome (a b : Option ℚ) : Option ℚ :=
  match a with
  | some w => some w
  | none => b

/-- Weight contributed by a single file line to the unordered edge key `kk`:
present exactly when the line parses and names that pair. -/
def lineWeight (weighted : Bool) (line : String) (kk : Int × Int) : Option ℚ :=
  match parseLine weighted line with
  | some (u, v, w) => if ekey u v = kk then some w else none
  | none => none

/-- Weight carried by the last line of the file that parses to the unordered
edge key `kk`; written from the words of the spec (last read wins) to be
compared with what `load_graph` actually stores. Later lines take
precedence; a line for a different pair contributes nothing. -/
def spec_lastWeight (weighted : Bool) : List String → (Int × Int) → Option ℚ
  | [], _ => none
  | line :: rest, kk =>
      firstSome (spec_lastWeight weighted rest kk) (lineWeight weighted line kk)

theorem firstSome_some (w : ℚ) (b : Option ℚ) : firstSome (some w) b = some w := rfl

theorem firstSome_none (b : Option ℚ) : firstSome none b = b := rfl

theorem firstSome_assoc (a b c : Option ℚ) :
    firstSome (firstSome a b) c = firstSome a (firstSome b c) := by
  cases a <;> simp [firstSome]

theorem ekey_comm (u v : Int) : ekey u v = ekey v u := by
  simp only [ekey]
  split <;> split <;> simp_all [Prod.ext_iff] <;> omega

theorem lookupW_eq_none_of_not_containsK (G : WGraph) (k : Int × Int)
    (h : containsK G k = false) : lookupW G k = none := by
  induction G with
  | nil => rfl
  | cons e rest ih =>
      simp only [containsK, Bool.or_eq_false_iff, beq_eq_false_iff_ne, ne_eq] at h
      simp only [lookupW, if_neg h.1]
      exact ih h.2

theorem lookupW_replaceW_self (G : WGraph) (k : Int × Int) (w : ℚ)
    (h : containsK G k = true) : lookupW (replaceW G k w) k = some w := by
  induction G with
  | nil => simp [containsK] at h
  | cons e rest ih =>
      by_cases he : e.1 = k
      · simp [replaceW, if_pos he, lookupW]
      · simp only [containsK, Bool.or_eq_true, beq_iff_eq] at h
        rcases h with h | h
        · exact absurd h he
        · simp only [replaceW, if_neg he, lookupW, if_neg he]
          exact ih h

theorem lookupW_replaceW_other (G : WGraph) (k kk : Int × Int) (w : ℚ)
    (h : kk ≠ k) : lookupW (replaceW G k w) kk = lookupW G kk := by
  induction G with
  | nil => rfl
  | cons e rest ih =>
      by_cases he : e.1 = k
      · have h1 : ¬k = kk := fun hh => h hh.symm
        have h2 : ¬e.1 = kk := by rw [he]; exact h1
        simp only [replaceW, if_pos he, lookupW, if_neg h1, if_neg h2]
      · simp only [replaceW, if_neg he, lookupW]
        by_cases h2 : e.1 = kk
        · simp [if_pos h2]
        · simp only [if_neg h2]
          exact ih

theorem lookupW_append_single (G : WGraph) (k kk : Int × Int) (w : ℚ) :
    lookupW (G ++ [(k, w)]) kk
      = firstSome (lookupW G kk) (if k = kk then some w else none) := by
  induction G with
  | nil => simp [lookupW, firstSome]
  | cons e rest ih =>
      simp only [List.cons_append, lookupW]
      split <;> simp [firstSome, ih]

theorem lookupW_addEdge (G : WGraph) (u v : Int) (w : ℚ) (kk : Int × Int) :
    lookupW (addEdge G u v w) kk
      = firstSome (if ekey u v = kk then some w else none) (lookupW G kk) := by
  unfold addEdge
  by_cases hc : containsK G (ekey u v) = true
  · rw [if_pos hc]
    by_cases hk : ekey u v = kk
    · subst hk
      rw [lookupW_replaceW_self G _ w hc]
      simp [firstSome]
    · rw [lookupW_replaceW_other G _ _ w (fun h => hk h.symm)]
      simp [firstSome, if_neg hk]
  · rw [if_neg hc]
    rw [lookupW_append_single]
    by_cases hk : ekey u v = kk
    · subst hk
      rw [lookupW_eq_none_of_not_containsK G _ (by simpa using hc)]
      simp [firstSome]
    · simp [firstSome, if_neg hk]
      cases hl : lookupW G kk <;> simp [firstSome]

theorem keys_replaceW (G : WGraph) (k : Int × Int) (w : ℚ) :
    (replaceW G k w).map Prod.fst = G.map Prod.fst := by
  induction G with
  | nil => rfl
  | cons e rest ih =>
      by_cases he : e.1 = k
      · simp [replaceW, if_pos he, he]
      · simp [replaceW, if_neg he, ih]

theorem not_mem_keys_of_not_containsK (G : WGraph) (k : Int × Int)
    (h : containsK G k = false) : k ∉ G.map Prod.fst := by
  induction G with
  | nil => simp
  | cons e rest ih =>
      simp only [containsK, Bool.or_eq_false_iff, beq_eq_false_iff_ne, ne_eq] at h
      simp only [List.map_cons, List.mem_cons]
      rintro (rfl | hmem)
      · exact h.1 rfl
      · exact ih h.2 hmem

theorem keys_addEdge_nodup (G : WGraph) (u v : Int) (w : ℚ)
    (h : (G.map Prod.fst).Nodup) : ((addEdge G u v w).map Prod.fst).Nodup := by
  unfold addEdge
  by_cases hc : containsK G (ekey u v) = true
  · rw [if_pos hc, keys_replaceW]
    exact h
  · rw [if_neg hc]
    have hnm := not_mem_keys_of_not_containsK G (ekey u v) (by simpa using hc)
    simp [List.nodup_append, h, hnm]

theorem load_lines_keys_nodup (weighted : Bool) (lines : List String) (G G' : WGraph)
    (h : load_lines weighted G lines = some G') (hG : (G.map Prod.fst).Nodup) :
    (G'.map Prod.fst).Nodup := by
  induction lines generalizing G with
  | nil =>
      simp only [load_lines, Option.some.injEq] at h
      exact h ▸ hG
  | cons line rest ih =>
      simp only [load_lines] at h
      cases hp : parseLine weighted line with
      | none => rw [hp] at h; exact absurd h (by simp)
      | some t =>
          rw [hp] at h
          exact ih (addEdge G t.1 t.2.1 t.2.2) h (keys_addEdge_nodup G t.1 t.2.1 t.2.2 hG)

theorem load_lines_lookup (weighted : Bool) (lines : List String) (G G' : WGraph)
    (h : load_lines weighted G lines = some G') (kk : Int × Int) :
    lookupW G' kk = firstSome (spec_lastWeight weighted lines kk) (lookupW G kk) := by
  induction lines generalizing G with
  | nil =>
      simp only [load_lines, Option.some.injEq] at h
      subst h
      simp [spec_lastWeight, firstSome]
  | cons line rest ih =>
      simp only [load_lines] at h
      cases hp : parseLine weighted line with
      | none => rw [hp] at h; exact absurd h (by simp)
      | some t =>
          rw [hp] at h
          have step := ih (addEdge G t.1 t.2.1 t.2.2) h
          rw [step, lookupW_addEdge]
          have hline : lineWeight weighted line kk
              = (if ekey t.1 t.2.1 = kk then some t.2.2 else none) := by
            simp [lineWeight, hp]
          simp only [spec_lastWeight, hline, ← firstSome_assoc]

theorem firstSome_none_right (a : Option ℚ) : firstSome a none = a := by
  cases a <;> rfl

theorem parseLine_false_weight (line : String) (u v : Int) (w : ℚ)
    (h : parseLine false line = some (u, v, w)) : w = 1 := by
  unfold parseLine at h
  split at h
  · split at h
    · simp only [Bool.false_eq_true, if_false] at h
      simp only [Option.some.injEq, Prod.mk.injEq] at h
      exact h.2.2.symm
    · exact absurd h (by simp)
  · exact absurd h (by simp)

theorem weights_one_replaceW (G : WGraph) (k : Int × Int)
    (hG : ∀ e ∈ G, e.2 = 1) : ∀ e ∈ replaceW G k 1, e.2 = 1 := by
  induction G with
  | nil => simp [replaceW]
  | cons e rest ih =>
      simp only [replaceW]
      split
      · intro x hx
        rcases List.mem_cons.mp hx with rfl | hx
        · rfl
        · exact hG x (List.mem_cons_of_mem e hx)
      · intro x hx
        rcases List.mem_cons.mp hx with rfl | hx
        · exact hG _ (List.mem_cons_self _ _)
        · exact ih (fun y hy => hG y (List.mem_cons_of_mem _ hy)) x hx

theorem weights_one_addEdge (G : WGraph) (u v : Int)
    (hG : ∀ e ∈ G, e.2 = 1) : ∀ e ∈ addEdge G u v 1, e.2 = 1 := by
  unfold addEdge
  by_cases hc : containsK G (ekey u v) = true
  · rw [if_pos hc]
    exact weights_one_replaceW G (ekey u v) hG
  · rw [if_neg hc]
    intro x hx
    rcases List.mem_append.mp hx with hx | hx
    · exact hG x hx
    · simp only [List.mem_singleton] at hx
      rw [hx]

theorem load_lines_cons_some (weighted : Bool) (line : String) (rest : List String)
    (G : WGraph) (u v : Int) (w : ℚ) (hp : parseLine weighted line = some (u, v, w)) :
    load_lines weighted G (line :: rest) = load_lines weighted (addEdge G u v w) rest := by
  simp [load_lines, hp]

theorem load_lines_weights_one (lines : List String) (G G' : WGraph)
    (h : load_lines false G lines = some G') (hG : ∀ e ∈ G, e.2 = 1) :
    ∀ e ∈ G', e.2 = 1 := by
  induction lines generalizing G with
  | nil =>
      simp only [load_lines, Option.some.injEq] at h
      exact h ▸ hG
  | cons line rest ih =>
      cases hp : parseLine false line with
      | none => rw [load_lines, hp] at h; exact absurd h (by simp)
      | some t =>
          obtain ⟨u, v, w⟩ := t
          rw [load_lines_cons_some false line rest G u v w hp] at h
          have hw : w = 1 := parseLine_false_weight line u v w hp
          subst hw
          exact ih (addEdge G u v 1) h (weights_one_addEdge G u v hG)

theorem total_weight_of_ones (G : WGraph) (hG : ∀ e ∈ G, e.2 = 1) :
    total_weight G = (G.length : ℚ) := by
  induction G with
  | nil => simp [total_weight]
  | cons e rest ih =>
      have he : e.2 = 1 := hG e (List.mem_cons_self e rest)
      have hr := ih (fun x hx => hG x (List.mem_cons_of_mem e hx))
      simp only [total_weight, List.map_cons, List.sum_cons, List.length_cons] at *
      rw [he, hr]
      push_cast
      ring

theorem load_lines_fail (weighted : Bool) (lines : List String) (line : String)
    (hmem : line ∈ lines) (hbad : parseLine weighted line = none) (G : WGraph) :
    load_lines weighted G lines = none := by
  induction lines generalizing G with
  | nil => exact absurd hmem (List.not_mem_nil line)
  | cons hd rest ih =>
      simp only [load_lines]
      rcases List.mem_cons.mp hmem with rfl | hmem
      · rw [hbad]
      · cases hp : parseLine weighted hd with
        | none => rfl
        | some t => exact ih hmem (addEdge G t.1 t.2.1 t.2.2)

theorem nodup_keys_eq (l : List (Int × Int)) (h : (l.map Prod.fst).Nodup)
    (n v w : Int) (h1 : (n, v) ∈ l) (h2 : (n, w) ∈ l) : v = w := by
  induction l with
  | nil => exact absurd h1 (List.not_mem_nil _)
  | cons e rest ih =>
      simp only [List.map_cons, List.nodup_cons] at h
      rcases List.mem_cons.mp h1 with rfl | hm1
      · rcases List.mem_cons.mp h2 with h2 | hm2
        · simp only [Prod.mk.injEq] at h2
          exact h2.2.symm
        · exact absurd (List.mem_map_of_mem Prod.fst hm2) h.1
      · rcases List.mem_cons.mp h2 with rfl | hm2
        · exact absurd (List.mem_map_of_mem Prod.fst hm1) h.1
        · exact ih h.2 hm1 hm2

/-- C1: every CutResult produced by the extraction loop carries the cut value
(W - energy) / 2 of its sample, and at W = 10 with energy 4 the computed cut
value is exactly 3. -/
theorem C1_cut_formula :
    (∀ (W : ℚ) (samples : List Sample) (r : CutResult),
        r ∈ extract_all W samples → r.cut = (W - r.energy) / 2)
    ∧ cut_value 10 4 = 3 := by
  constructor
  · intro W samples r hr
    simp only [extract_all, List.mem_map] at hr
    obtain ⟨s, _, rfl⟩ := hr
    simp [extract, cut_value]
  · norm_num [cut_value]

theorem C1_cut_formula_witness :
    (extract 10 ⟨[], 4⟩).cut = (10 - (extract 10 ⟨[], 4⟩).energy) / 2 :=
  C1_cut_formula.1 10 [⟨[], 4⟩] (extract 10 ⟨[], 4⟩) (by simp [extract_all])

/-- C2: whenever the sample sequence is non-empty, the persisted record is
built from the first sample (its energy and the cut value (W - energy) / 2),
and the record holds exactly the keys N, k, seed, weighted, W, ising_energy,
maxcut_value and method, the last bound to the constant string AKMaxSAT. -/
theorem C2_record_from_first_sample (N k seed : Int) (weighted : Bool)
    (lines : List String) (G : WGraph) (first : Sample) (rest : List Sample)
    (h : load_graph lines weighted = some G) :
    run_solver N k seed weighted lines (first :: rest)
      = some ⟨total_weight G,
          some (savedict N k seed weighted (total_weight G) first.energy
            ((total_weight G - first.energy) / 2))⟩
    ∧ (savedict N k seed weighted (total_weight G) first.energy
        ((total_weight G - first.energy) / 2)).map Prod.fst
      = ["N", "k", "seed", "weighted", "W", "ising_energy", "maxcut_value", "method"] := by
  refine ⟨?_, by simp [savedict]⟩
  simp [run_solver, h]

theorem C2_record_from_first_sample_witness :
    run_solver 10 3 2 true ["1.0,0,1"] [⟨[(0, -1), (1, 1)], -1⟩]
      = some ⟨total_weight [((0, 1), 1)],
          some (savedict 10 3 2 true (total_weight [((0, 1), 1)])
            (Sample.mk [(0, -1), (1, 1)] (-1)).energy
            ((total_weight [((0, 1), 1)] - (Sample.mk [(0, -1), (1, 1)] (-1)).energy) / 2))⟩
    ∧ (savedict 10 3 2 true (total_weight [((0, 1), 1)])
        (Sample.mk [(0, -1), (1, 1)] (-1)).energy
        ((total_weight [((0, 1), 1)] - (Sample.mk [(0, -1), (1, 1)] (-1)).energy) / 2)).map
          Prod.fst
      = ["N", "k", "seed", "weighted", "W", "ising_energy", "maxcut_value", "method"] :=
  C2_record_from_first_sample 10 3 2 true ["1.0,0,1"] [((0, 1), 1)]
    ⟨[(0, -1), (1, 1)], -1⟩ []
    (by simp [load_graph, load_lines, parseLine, pyStrip, splitOnChar, isSpaceChar,
      pyInt, pyNat, digitsVal, pyFloat, addEdge, containsK, replaceW, ekey])

/-- C3: total weight W is the sum of the edge weights of the loaded graph
and is invariant under any permutation of the edge iteration order. -/
theorem C3_total_weight_order_independent (G : WGraph) :
    total_weight G = (G.map (fun e => e.2)).sum
    ∧ ∀ G2 : WGraph, G.Perm G2 → total_weight G = total_weight G2 := by
  refine ⟨rfl, ?_⟩
  intro G2 hp
  unfold total_weight
  exact List.Perm.sum_eq (List.Perm.map _ hp)

theorem C3_total_weight_order_independent_witness :
    total_weight [((0, 1), (1 : ℚ)), ((1, 2), 2)]
      = total_weight [((1, 2), (2 : ℚ)), ((0, 1), 1)] :=
  (C3_total_weight_order_independent [((0, 1), 1), ((1, 2), 2)]).2
    [((1, 2), 2), ((0, 1), 1)] (List.Perm.swap _ _ _)

/-- C5: loading with weighted = False gives every edge weight exactly 1, so
W equals the number of distinct edges of the loaded graph. -/
theorem C5_unweighted_weights_one (lines : List String) (G : WGraph)
    (h : load_graph lines false = some G) :
    (∀ e ∈ G, e.2 = 1) ∧ total_weight G = (G.length : ℚ) := by
  have h1 := load_lines_weights_one lines [] G h (by simp)
  exact ⟨h1, total_weight_of_ones G h1⟩

theorem C5_unweighted_weights_one_witness :
    (∀ e ∈ ([((0, 1), 1), ((1, 2), 1), ((0, 2), 1)] : WGraph), e.2 = 1)
    ∧ total_weight [((0, 1), 1), ((1, 2), 1), ((0, 2), 1)] = 3 := by
  have h := C5_unweighted_weights_one ["1.0,0,1", "2.0,1,2", "1.5,0,2"]
      [((0, 1), 1), ((1, 2), 1), ((0, 2), 1)]
      (by simp [load_graph, load_lines, parseLine, pyStrip, splitOnChar, isSpaceChar,
        pyInt, pyNat, digitsVal, addEdge, containsK, replaceW, ekey])
  refine ⟨h.1, ?_⟩
  rw [h.2]
  norm_num

/-- C6: with an empty sample sequence the run still succeeds, the auxiliary
file holding W is produced, and no result record is written. -/
theorem C6_empty_samples_skip_record (N k seed : Int) (weighted : Bool)
    (lines : List String) (G : WGraph) (h : load_graph lines weighted = some G) :
    run_solver N k seed weighted lines [] = some ⟨total_weight G, none⟩ := by
  simp [run_solver, h]

theorem C6_empty_samples_skip_record_witness :
    run_solver 10 3 2 true ["1.0,0,1"] [] = some ⟨total_weight [((0, 1), 1)], none⟩ :=
  C6_empty_samples_skip_record 10 3 2 true ["1.0,0,1"] [((0, 1), 1)]
    (by simp [load_graph, load_lines, parseLine, pyStrip, splitOnChar, isSpaceChar,
      pyInt, pyNat, digitsVal, pyFloat, addEdge, containsK, replaceW, ekey])

/-- C7: a malformed line anywhere in the file makes the load fail, and the
whole run aborts with no output file for every possible solver outcome. -/
theorem C7_malformed_line_fatal (weighted : Bool) (lines : List String) (line : String)
    (hmem : line ∈ lines) (hbad : parseLine weighted line = none) :
    load_graph lines weighted = none
    ∧ ∀ (N k seed : Int) (samples : List Sample),
        run_solver N k seed weighted lines samples = none := by
  have hl : load_graph lines weighted = none := load_lines_fail weighted lines line hmem hbad []
  exact ⟨hl, fun N k seed samples => by simp [run_solver, hl]⟩

theorem C7_malformed_line_fatal_witness :
    load_graph ["1.0,0,1", "1.0,2"] true = none
    ∧ ∀ (N k seed : Int) (samples : List Sample),
        run_solver N k seed true ["1.0,0,1", "1.0,2"] samples = none :=
  C7_malformed_line_fatal true ["1.0,0,1", "1.0,2"] "1.0,2"
    (by simp) (by decide)

/-- C4 counterexample: a returned sample assigns the out-of-domain value 0
to node 0, yet the run completes (it is not aborted) and the partitions are
still produced, with node 0 silently placed in neither of them. -/
theorem C4_out_of_domain_counterexample :
    ¬((0 : Int) = -1 ∨ (0 : Int) = 1)
    ∧ run_solver 10 3 2 true ["1.0,0,1"] [⟨[(0, 0), (1, 1)], 0⟩] ≠ none
    ∧ sampleS0 ⟨[(0, 0), (1, 1)], 0⟩ = []
    ∧ sampleS1 ⟨[(0, 0), (1, 1)], 0⟩ = [1] := by
  have hload : load_graph ["1.0,0,1"] true = some [((0, 1), 1)] := by
    simp [load_graph, load_lines, parseLine, pyStrip, splitOnChar, isSpaceChar,
      pyInt, pyNat, digitsVal, pyFloat, addEdge, containsK, replaceW, ekey]
  refine ⟨by omega, ?_, by decide, by decide⟩
  simp [run_solver, hload]

/-- C4 amended: a node with spin -1 lands in S0 and one with spin +1 lands
in S1; a node whose value is outside both is silently placed in neither
partition, and the run does not abort: whatever values the samples hold, a
successful load still yields a run output. -/
theorem C4_partition_rule (s : Sample) (n v : Int)
    (hmem : (n, v) ∈ s.assign) (hnodup : (s.assign.map Prod.fst).Nodup) :
    (v = -1 → n ∈ sampleS0 s)
    ∧ (v = 1 → n ∈ sampleS1 s)
    ∧ (v ≠ -1 → v ≠ 1 → n ∉ sampleS0 s ∧ n ∉ sampleS1 s)
    ∧ ∀ (N k seed : Int) (weighted : Bool) (lines : List String) (G : WGraph)
        (samples : List Sample), load_graph lines weighted = some G →
        s ∈ samples → (run_solver N k seed weighted lines samples).isSome = true := by
  refine ⟨?_, ?_, ?_, ?_⟩
  · rintro rfl
    simp only [sampleS0, List.mem_map, List.mem_filter, decide_eq_true_eq]
    exact ⟨(n, -1), ⟨hmem, rfl⟩, rfl⟩
  · rintro rfl
    simp only [sampleS1, List.mem_map, List.mem_filter, decide_eq_true_eq]
    exact ⟨(n, 1), ⟨hmem, rfl⟩, rfl⟩
  · intro hv1 hv2
    constructor
    · intro hc
      simp only [sampleS0, List.mem_map, List.mem_filter, decide_eq_true_eq] at hc
      obtain ⟨⟨pn, pv⟩, ⟨hp, hpv⟩, hpn⟩ := hc
      obtain rfl : pn = n := hpn
      exact hv1 (nodup_keys_eq s.assign hnodup pn v pv hmem hp ▸ hpv)
    · intro hc
      simp only [sampleS1, List.mem_map, List.mem_filter, decide_eq_true_eq] at hc
      obtain ⟨⟨pn, pv⟩, ⟨hp, hpv⟩, hpn⟩ := hc
      obtain rfl : pn = n := hpn
      exact hv2 (nodup_keys_eq s.assign hnodup pn v pv hmem hp ▸ hpv)
  · intro N k seed weighted lines G samples h hs
    cases samples with
    | nil => exact absurd hs (List.not_mem_nil s)
    | cons first rest => simp [run_solver, h]

theorem C4_partition_rule_witness :
    ((0 : Int) = -1 → (2 : Int) ∈ sampleS0 ⟨[(0, -1), (1, 1), (2, 0)], 0⟩)
    ∧ ((0 : Int) = 1 → (2 : Int) ∈ sampleS1 ⟨[(0, -1), (1, 1), (2, 0)], 0⟩)
    ∧ ((0 : Int) ≠ -1 → (0 : Int) ≠ 1 →
        (2 : Int) ∉ sampleS0 ⟨[(0, -1), (1, 1), (2, 0)], 0⟩
        ∧ (2 : Int) ∉ sampleS1 ⟨[(0, -1), (1, 1), (2, 0)], 0⟩)
    ∧ ∀ (N k seed : Int) (weighted : Bool) (lines : List String) (G : WGraph)
        (samples : List Sample), load_graph lines weighted = some G →
        (⟨[(0, -1), (1, 1), (2, 0)], 0⟩ : Sample) ∈ samples →
        (run_solver N k seed weighted lines samples).isSome = true :=
  C4_partition_rule ⟨[(0, -1), (1, 1), (2, 0)], 0⟩ 2 0 (by decide) (by decide)

/-- C8: for a sample whose spins all lie in the set of -1 and +1, the two
extracted partitions cover exactly the node set of the sample and are
disjoint. -/
theorem C8_partition_complete (s : Sample)
    (hdom : ∀ p ∈ s.assign, p.2 = -1 ∨ p.2 = 1)
    (hnodup : (s.assign.map Prod.fst).Nodup) :
    (sampleS0 s).toFinset ∪ (sampleS1 s).toFinset = (s.assign.map Prod.fst).toFinset
    ∧ (sampleS0 s).toFinset ∩ (sampleS1 s).toFinset = ∅ := by
  constructor
  · ext n
    simp only [Finset.mem_union, List.mem_toFinset, sampleS0, sampleS1,
      List.mem_map, List.mem_filter, decide_eq_true_eq]
    constructor
    · rintro (⟨p, ⟨hp, _⟩, rfl⟩ | ⟨p, ⟨hp, _⟩, rfl⟩) <;> exact ⟨p, hp, rfl⟩
    · rintro ⟨p, hp, rfl⟩
      rcases hdom p hp with hv | hv
      · exact Or.inl ⟨p, ⟨hp, hv⟩, rfl⟩
      · exact Or.inr ⟨p, ⟨hp, hv⟩, rfl⟩
  · ext n
    simp only [Finset.mem_inter, List.mem_toFinset, Finset.not_mem_empty, iff_false,
      not_and, sampleS0, sampleS1, List.mem_map, List.mem_filter, decide_eq_true_eq]
    rintro ⟨⟨pn, pv⟩, ⟨hp, hpv⟩, hpn⟩ ⟨⟨qn, qv⟩, ⟨hq, hqv⟩, hqn⟩
    obtain rfl : pn = n := hpn
    obtain rfl : qn = pn := hqn
    have := nodup_keys_eq s.assign hnodup qn pv qv hp hq
    omega

theorem C8_partition_complete_witness :
    (sampleS0 ⟨[(0, -1), (1, 1), (2, -1)], -9/2⟩).toFinset
        ∪ (sampleS1 ⟨[(0, -1), (1, 1), (2, -1)], -9/2⟩).toFinset
      = ((Sample.mk [(0, -1), (1, 1), (2, -1)] (-9/2)).assign.map Prod.fst).toFinset
    ∧ (sampleS0 ⟨[(0, -1), (1, 1), (2, -1)], -9/2⟩).toFinset
        ∩ (sampleS1 ⟨[(0, -1), (1, 1), (2, -1)], -9/2⟩).toFinset = ∅ :=
  C8_partition_complete ⟨[(0, -1), (1, 1), (2, -1)], -9/2⟩ (by decide) (by decide)

/-- C9: a loaded graph never holds two entries for the same unordered node
pair, the edge key is symmetric in its endpoints, and the weight stored for
any pair is the one carried by the last line of the file naming that pair. -/
theorem C9_duplicate_edges_last_wins (weighted : Bool) (lines : List String)
    (G : WGraph) (h : load_graph lines weighted = some G) :
    (G.map Prod.fst).Nodup
    ∧ (∀ u v : Int, ekey u v = ekey v u)
    ∧ ∀ u v : Int, lookupW G (ekey u v) = spec_lastWeight weighted lines (ekey u v) := by
  refine ⟨load_lines_keys_nodup weighted lines [] G h (by simp), ekey_comm, ?_⟩
  intro u v
  have hlk := load_lines_lookup weighted lines [] G h (ekey u v)
  rw [hlk, show lookupW [] (ekey u v) = none from rfl, firstSome_none_right]

theorem C9_duplicate_edges_last_wins_witness :
    (([((0, 1), 2)] : WGraph).map Prod.fst).Nodup
    ∧ (∀ u v : Int, ekey u v = ekey v u)
    ∧ ∀ u v : Int, lookupW [((0, 1), 2)] (ekey u v)
        = spec_lastWeight true ["1.0,0,1", "2.0,1,0"] (ekey u v) :=
  C9_duplicate_edges_last_wins true ["1.0,0,1", "2.0,1,0"] [((0, 1), 2)]
    (by simp [load_graph, load_lines, parseLine, pyStrip, splitOnChar, isSpaceChar,
      pyInt, pyNat, digitsVal, pyFloat, addEdge, containsK, replaceW, ekey])

/-- C10: with weighted = False the weight field is never converted, so a
line with three comma-separated fields and integer node fields loads with
weight 1 even when its weight field is not numeric. -/
theorem C10_unweighted_ignores_weight_field (line : String) (ws n1s n2s : List Char)
    (a b : Int) (hsplit : splitOnChar ',' (pyStrip line.data) = [ws, n1s, n2s])
    (h1 : pyInt n1s = some a) (h2 : pyInt n2s = some b) :
    parseLine false line = some (a, b, 1) := by
  unfold parseLine
  rw [hsplit]
  simp [h1, h2]

theorem C10_unweighted_ignores_weight_field_witness :
    parseLine false "abc,1,2" = some (1, 2, 1) ∧ pyFloat "abc".data = none :=
  ⟨C10_unweighted_ignores_weight_field "abc,1,2" ['a', 'b', 'c'] ['1'] ['2'] 1 2
      (by decide) (by decide) (by decide),
    by decide⟩
